import Mathlib

/-!
Verification of the Gravion quantitative-analysis core against its
natural-language specification.

The repository ships the React/TypeScript frontend and the design documents;
the Python backend engine (FastAPI, per TDD.md) is not part of the source
tree.  Frontend functions (`computeEquityCurve`, `rangeToValues`,
`sweepRowToValues`, `totalCombinations`, `sortedResults`, the results-grid
cells) are embedded directly from the TypeScript source.  Engine behaviour
that only exists behind the HTTP boundary (the backtest simulator, the
indicator library, the optimizer guard, the batch runner) is modelled from
the specification text, and each such definition says so in its doc comment.

Numbers are modelled as rationals; JavaScript `Math.round` is `Int.floor
(x + 1/2)` (round half toward positive infinity), exactly ECMA semantics.
-/

namespace Gravion

/-! ## Data model (from `src/frontend/src/types/stock.ts`, `src/unnamed/part_004`) -/

/-- Trade side, `type` field of `TradeEntry` in `types/stock.ts`. -/
inductive TradeType where
  | buy
  | sell
deriving DecidableEq, Repr

/-- TradeEntry from `types/stock.ts`: date (ISO string), type, price, shares,
pnl (meaningful on SELL only). -/
structure TradeEntry where
  date : String
  ttype : TradeType
  price : ℚ
  shares : ℚ
  pnl : ℚ
deriving DecidableEq, Repr

/-- BatchBacktestResult from `types/stock.ts` (fields the claims use). -/
structure BatchBacktestResult where
  symbol : String
  total_return_pct : ℚ
  win_rate_pct : ℚ
  profit_factor : ℚ
  max_drawdown_pct : ℚ
  trade_count : ℕ
  trades : List TradeEntry
deriving DecidableEq, Repr

/-- EquityCurvePoint from `types/stock.ts`. -/
structure EquityCurvePoint where
  time : String
  value : ℚ
deriving DecidableEq, Repr

/-! ## JavaScript numeric helpers -/

/-- ECMA `Math.round`: nearest integer, ties toward positive infinity. -/
def jsRound (x : ℚ) : ℤ := ⌊x + 1/2⌋

/-- JavaScript `Math.round(x * 100) / 100` (two-decimal rounding used by
`computeEquityCurve`). -/
def round2 (x : ℚ) : ℚ := (jsRound (x * 100) : ℚ) / 100

/-- JavaScript `Math.round(x * 100000) / 100000` (five-decimal rounding used
by `rangeToValues`). -/
def round5 (x : ℚ) : ℚ := (jsRound (x * 100000) : ℚ) / 100000

/-! ## computeEquityCurve
Embedded from `src/unnamed/part_013` lines 42-71; the copy in
`src/frontend/src/components/SourceSelector.tsx` lines 348-366 is the same
algorithm (it merely drops the unused `symbol` field of the events). -/

/-- PnL event pushed by the collection loop of `computeEquityCurve`. -/
structure SellEvent where
  time : String
  symbol : String
  pnl : ℚ
deriving DecidableEq, Repr

/-- Collection loop of `computeEquityCurve`: for every result, for every
trade, push an event when the trade is a SELL. -/
def sellEvents (results : List BatchBacktestResult) : List SellEvent :=
  results.flatMap fun r =>
    r.trades.filterMap fun t =>
      if t.ttype = TradeType.sell then some ⟨t.date, r.symbol, t.pnl⟩ else none

/-- Stable insertion used to model `events.sort((a, b) =>
a.time.localeCompare(b.time))`: the element goes after every element whose
time is not greater (JavaScript sort is stable).  ISO dates are ASCII, where
locale collation agrees with code-unit order, modelled by the lexicographic
order on `String`. -/
def insertByTime (e : SellEvent) : List SellEvent → List SellEvent
  | [] => [e]
  | f :: fs => if e.time < f.time then e :: f :: fs else f :: insertByTime e fs

/-- Stable chronological sort of the event list. -/
def sortByTime (l : List SellEvent) : List SellEvent :=
  l.foldl (fun acc e => insertByTime e acc) []

/-- Accumulation loop of `computeEquityCurve`: `cum += ev.pnl` then push the
two-decimal rounding of the running value. -/
def accumulate (cum : ℚ) : List SellEvent → List EquityCurvePoint
  | [] => []
  | e :: es => ⟨e.time, round2 (cum + e.pnl)⟩ :: accumulate (cum + e.pnl) es

/-- JavaScript `Map.set` on an association list: an existing key keeps its
original position and takes the new value, a new key is appended. -/
def mapSet (m : List (String × ℚ)) (k : String) (v : ℚ) : List (String × ℚ) :=
  if m.any (fun p => p.1 = k) then
    m.map fun p => if p.1 = k then (k, v) else p
  else
    m ++ [(k, v)]

/-- Deduplication pass of `computeEquityCurve`: fill a `Map` keyed by time
(keeping the last value per key) and read its entries back. -/
def dedupByTime (curve : List EquityCurvePoint) : List EquityCurvePoint :=
  (curve.foldl (fun m p => mapSet m p.time p.value) []).map fun p => ⟨p.1, p.2⟩

/-- Seed timestamp `events[0]?.time || "2024-01-01"`: the first (sorted)
event time, falling back to the literal when there is no event or the first
time is the empty string (falsy). -/
def seedTime (events : List SellEvent) : String :=
  match events.head? with
  | some e => if e.time = "" then "2024-01-01" else e.time
  | none => "2024-01-01"

/-- computeEquityCurve from `src/unnamed/part_013` lines 42-71. -/
def computeEquityCurve (results : List BatchBacktestResult)
    (capitalPerStock : ℚ) : List EquityCurvePoint :=
  let events := sortByTime (sellEvents results)
  let totalInitial := capitalPerStock * (results.length : ℚ)
  let curve : List EquityCurvePoint :=
    ⟨seedTime events, totalInitial⟩ :: accumulate totalInitial events
  dedupByTime curve

/-- Running sums of a pnl list on top of a seed; this is the wording of the
specification ("accumulating those PnL events onto a starting seed"), used
to compare with the embedded accumulation loop. -/
def runningSums (seed : ℚ) : List ℚ → List ℚ
  | [] => []
  | p :: ps => (seed + p) :: runningSums (seed + p) ps

/-- Seed-cons-accumulate stage of `computeEquityCurve`, before the
deduplication pass. -/
def rawCurve (results : List BatchBacktestResult) (capitalPerStock : ℚ) :
    List EquityCurvePoint :=
  let events := sortByTime (sellEvents results)
  let totalInitial := capitalPerStock * (results.length : ℚ)
  ⟨seedTime events, totalInitial⟩ :: accumulate totalInitial events

theorem computeEquityCurve_eq_dedup_raw (results : List BatchBacktestResult)
    (capital : ℚ) :
    computeEquityCurve results capital = dedupByTime (rawCurve results capital) := rfl

/-! ## Lemmas about the chronological sort -/

theorem insertByTime_perm (e : SellEvent) (l : List SellEvent) :
    (insertByTime e l).Perm (e :: l) := by
  induction l with
  | nil => simp [insertByTime]
  | cons f fs ih =>
    by_cases h : e.time < f.time
    · simp [insertByTime, h]
    · simp only [insertByTime, if_neg h]
      exact (ih.cons f).trans (List.Perm.swap e f fs)

theorem sortFold_perm (l acc : List SellEvent) :
    (l.foldl (fun a e => insertByTime e a) acc).Perm (acc ++ l) := by
  induction l generalizing acc with
  | nil => simp
  | cons e es ih =>
    simp only [List.foldl_cons]
    refine (ih (insertByTime e acc)).trans ?_
    refine (((insertByTime_perm e acc).append_right es).trans ?_)
    exact List.perm_middle.symm

theorem sortByTime_perm (l : List SellEvent) : (sortByTime l).Perm l := by
  simpa using sortFold_perm l []

theorem insertByTime_pairwise (e : SellEvent) (l : List SellEvent)
    (h : l.Pairwise fun a b => a.time ≤ b.time) :
    (insertByTime e l).Pairwise fun a b => a.time ≤ b.time := by
  induction l with
  | nil => simp [insertByTime]
  | cons f fs ih =>
    rcases List.pairwise_cons.mp h with ⟨hf, hfs⟩
    by_cases hc : e.time < f.time
    · simp only [insertByTime, if_pos hc]
      refine List.pairwise_cons.mpr ⟨?_, h⟩
      intro x hx
      rcases List.mem_cons.mp hx with hx | hx
      · exact hx ▸ le_of_lt hc
      · exact (le_of_lt hc).trans (hf x hx)
    · simp only [insertByTime, if_neg hc]
      have hfe : f.time ≤ e.time := not_lt.mp hc
      refine List.pairwise_cons.mpr ⟨?_, ih hfs⟩
      intro x hx
      have hx' : x ∈ e :: fs := (insertByTime_perm e fs).subset hx
      rcases List.mem_cons.mp hx' with hx' | hx'
      · exact hx' ▸ hfe
      · exact hf x hx'

theorem sortFold_pairwise (l acc : List SellEvent)
    (h : acc.Pairwise fun a b => a.time ≤ b.time) :
    (l.foldl (fun a e => insertByTime e a) acc).Pairwise
      fun a b => a.time ≤ b.time := by
  induction l generalizing acc with
  | nil => simpa using h
  | cons e es ih => exact ih _ (insertByTime_pairwise e acc h)

theorem sortByTime_pairwise (l : List SellEvent) :
    (sortByTime l).Pairwise fun a b => a.time ≤ b.time :=
  sortFold_pairwise l [] (List.Pairwise.nil)

theorem accumulate_map_value (s : ℚ) (evs : List SellEvent) :
    (accumulate s evs).map EquityCurvePoint.value
      = (runningSums s (evs.map SellEvent.pnl)).map round2 := by
  induction evs generalizing s with
  | nil => rfl
  | cons e es ih => simp [accumulate, runningSums, ih]

theorem accumulate_map_time (s : ℚ) (evs : List SellEvent) :
    (accumulate s evs).map EquityCurvePoint.time = evs.map SellEvent.time := by
  induction evs generalizing s with
  | nil => rfl
  | cons e es ih => simp [accumulate, ih]

/-- C2.  The batch-portfolio equity curve of `computeEquityCurve`
(`src/unnamed/part_013` lines 42-71): the SELL pnl events of all per-symbol
results are merged into one list, sorted chronologically by trade date
(stably, as `Array.prototype.sort` with `localeCompare`), and the curve
accumulates those pnl values onto the seed `capital_per_symbol` times the
number of per-symbol results (one result per symbol of the batch); the code
then collapses duplicate dates, keeping the last value of each date. -/
theorem C2_portfolio_equity_curve (results : List BatchBacktestResult)
    (capital : ℚ) :
    (sortByTime (sellEvents results)).Perm (sellEvents results) ∧
    ((sortByTime (sellEvents results)).Pairwise fun a b => a.time ≤ b.time) ∧
    ((accumulate (capital * (results.length : ℚ)) (sortByTime (sellEvents results))).map
        EquityCurvePoint.value
      = (runningSums (capital * (results.length : ℚ))
          ((sortByTime (sellEvents results)).map SellEvent.pnl)).map round2) ∧
    computeEquityCurve results capital
      = dedupByTime
          (⟨seedTime (sortByTime (sellEvents results)), capital * (results.length : ℚ)⟩
            :: accumulate (capital * (results.length : ℚ)) (sortByTime (sellEvents results))) :=
  ⟨sortByTime_perm _, sortByTime_pairwise _, accumulate_map_value _ _, rfl⟩

/-! ## Lemmas about the deduplication pass -/

/-- Fold of `Map.set` over curve points, the first stage of `dedupByTime`. -/
def dfold (m : List (String × ℚ)) (curve : List EquityCurvePoint) :
    List (String × ℚ) :=
  curve.foldl (fun m p => mapSet m p.time p.value) m

theorem dedupByTime_eq_dfold (curve : List EquityCurvePoint) :
    dedupByTime curve = (dfold [] curve).map fun p => ⟨p.1, p.2⟩ := rfl

theorem mapSet_map_fst_of_mem (m : List (String × ℚ)) (k : String) (v : ℚ)
    (h : k ∈ m.map Prod.fst) : (mapSet m k v).map Prod.fst = m.map Prod.fst := by
  have hany : m.any (fun p => p.1 = k) = true := by
    rcases List.mem_map.mp h with ⟨p, hp, hpk⟩
    exact List.any_eq_true.mpr ⟨p, hp, by simp [hpk]⟩
  simp only [mapSet, if_pos hany, List.map_map]
  refine List.map_congr_left fun p _ => ?_
  by_cases hpk : p.1 = k <;> simp [hpk]

theorem mapSet_map_fst_of_not_mem (m : List (String × ℚ)) (k : String) (v : ℚ)
    (h : k ∉ m.map Prod.fst) :
    (mapSet m k v).map Prod.fst = m.map Prod.fst ++ [k] := by
  have hany : m.any (fun p => p.1 = k) = false := by
    by_contra hc
    rcases List.any_eq_true.mp (Bool.of_not_eq_false hc) with ⟨p, hp, hpk⟩
    exact h (List.mem_map.mpr ⟨p, hp, by simpa using hpk⟩)
  simp [mapSet, hany]

theorem mapSet_mem_of_ne (m : List (String × ℚ)) (k : String) (v : ℚ)
    (kv : String × ℚ) (hmem : kv ∈ mapSet m k v) (hne : kv.1 ≠ k) : kv ∈ m := by
  by_cases hany : m.any (fun p => p.1 = k) = true
  · simp only [mapSet, if_pos hany] at hmem
    rcases List.mem_map.mp hmem with ⟨p, hp, hpe⟩
    by_cases hpk : p.1 = k
    · simp only [if_pos hpk] at hpe
      exact absurd (by rw [← hpe]) hne
    · rw [if_neg hpk] at hpe
      exact hpe ▸ hp
  · simp only [mapSet, if_neg hany, List.mem_append, List.mem_singleton] at hmem
    rcases hmem with hmem | hmem
    · exact hmem
    · exact absurd (by rw [hmem]) hne

theorem mapSet_eq_of_mem_key (m : List (String × ℚ)) (k : String) (v : ℚ)
    (kv : String × ℚ) (hmem : kv ∈ mapSet m k v) (hk : kv.1 = k) : kv = (k, v) := by
  by_cases hany : m.any (fun p => p.1 = k) = true
  · simp only [mapSet, if_pos hany] at hmem
    rcases List.mem_map.mp hmem with ⟨p, hp, hpe⟩
    by_cases hpk : p.1 = k
    · simp only [if_pos hpk] at hpe
      exact hpe.symm
    · rw [if_neg hpk] at hpe
      exact absurd (hpe ▸ hk) hpk
  · simp only [mapSet, if_neg hany, List.mem_append, List.mem_singleton] at hmem
    rcases hmem with hmem | hmem
    · exact absurd (List.any_eq_true.mpr ⟨kv, hmem, by simp [hk]⟩) hany
    · exact hmem

theorem mapSet_pairwise (m : List (String × ℚ)) (k : String) (v : ℚ)
    (hm : m.Pairwise fun a b => a.1 < b.1) (hk : ∀ p ∈ m, p.1 ≤ k) :
    (mapSet m k v).Pairwise fun a b => a.1 < b.1 := by
  by_cases hmem : k ∈ m.map Prod.fst
  · have hfst := mapSet_map_fst_of_mem m k v hmem
    have h1 : ((mapSet m k v).map Prod.fst).Pairwise (· < ·) := by
      rw [hfst]
      exact (List.pairwise_map).mpr hm
    exact (List.pairwise_map).mp h1
  · have hfst := mapSet_map_fst_of_not_mem m k v hmem
    have h1 : ((mapSet m k v).map Prod.fst).Pairwise (· < ·) := by
      rw [hfst]
      refine (List.pairwise_append).mpr ⟨(List.pairwise_map).mpr hm, by simp, ?_⟩
      intro a ha b hb
      rw [List.mem_singleton] at hb
      subst hb
      rcases List.mem_map.mp ha with ⟨p, hp, hpe⟩
      rw [← hpe]
      exact lt_of_le_of_ne (hk p hp) (fun hc => hmem (List.mem_map.mpr ⟨p, hp, hc⟩))
    exact (List.pairwise_map).mp h1

theorem getLast?_cons_of_ne_nil {α : Type} (a : α) (l : List α) (h : l ≠ []) :
    (a :: l).getLast? = l.getLast? := by
  cases l with
  | nil => exact absurd rfl h
  | cons b bs => exact List.getLast?_cons_cons

theorem dfold_spec (curve : List EquityCurvePoint) :
    ∀ m : List (String × ℚ),
      m.Pairwise (fun a b => a.1 < b.1) →
      curve.Pairwise (fun a b => a.time ≤ b.time) →
      (∀ p ∈ m, ∀ q ∈ curve, p.1 ≤ q.time) →
      (dfold m curve).Pairwise (fun a b => a.1 < b.1) ∧
      (∀ kv ∈ dfold m curve,
        (curve.filter (fun q => q.time == kv.1) = [] ∧ kv ∈ m) ∨
        ((curve.filter (fun q => q.time == kv.1)).getLast? = some ⟨kv.1, kv.2⟩)) := by
  induction curve with
  | nil =>
    intro m hm _ _
    exact ⟨hm, fun kv hkv => Or.inl ⟨rfl, hkv⟩⟩
  | cons p rest ih =>
    intro m hm hcurve hbound
    rcases List.pairwise_cons.mp hcurve with ⟨hp, hrest⟩
    have hboundp : ∀ q ∈ m, q.1 ≤ p.time := fun q hq => hbound q hq p (List.mem_cons_self p rest)
    have hm' : (mapSet m p.time p.value).Pairwise fun a b => a.1 < b.1 :=
      mapSet_pairwise m p.time p.value hm hboundp
    have hbound' : ∀ q ∈ mapSet m p.time p.value, ∀ r ∈ rest, q.1 ≤ r.time := by
      intro q hq r hr
      by_cases hqk : q.1 = p.time
      · exact hqk ▸ hp r hr
      · exact hbound q (mapSet_mem_of_ne m p.time p.value q hq hqk) r (List.mem_cons_of_mem p hr)
    have hstep : dfold m (p :: rest) = dfold (mapSet m p.time p.value) rest := rfl
    rcases ih (mapSet m p.time p.value) hm' hrest hbound' with ⟨hsorted, hlast⟩
    refine ⟨hstep ▸ hsorted, ?_⟩
    intro kv hkv
    rw [hstep] at hkv
    rcases hlast kv hkv with ⟨hfil, hmem⟩ | hlas
    · by_cases hk : p.time = kv.1
      · have hkv' : kv = (p.time, p.value) :=
          mapSet_eq_of_mem_key m p.time p.value kv hmem hk.symm
        refine Or.inr ?_
        have : (p :: rest).filter (fun q => q.time == kv.1) = [p] := by
          simp [List.filter_cons, hk, hfil]
        rw [this]
        simp [List.getLast?, hkv', ← hk]
      · refine Or.inl ⟨?_, mapSet_mem_of_ne m p.time p.value kv hmem (fun hc => hk hc.symm)⟩
        simp [List.filter_cons, hk, hfil]
    · refine Or.inr ?_
      have hne : rest.filter (fun q => q.time == kv.1) ≠ [] := by
        intro hc
        rw [hc] at hlas
        simp at hlas
      by_cases hk : p.time = kv.1
      · have : (p :: rest).filter (fun q => q.time == kv.1)
            = p :: rest.filter (fun q => q.time == kv.1) := by
          simp [List.filter_cons, hk]
        rw [this, getLast?_cons_of_ne_nil p _ hne]
        exact hlas
      · have : (p :: rest).filter (fun q => q.time == kv.1)
            = rest.filter (fun q => q.time == kv.1) := by
          simp [List.filter_cons, hk]
        rw [this]
        exact hlas

theorem dedupByTime_pairwise (curve : List EquityCurvePoint)
    (h : curve.Pairwise fun a b => a.time ≤ b.time) :
    (dedupByTime curve).Pairwise fun a b => a.time < b.time := by
  have hs := (dfold_spec curve [] List.Pairwise.nil h (by simp)).1
  rw [dedupByTime_eq_dfold]
  exact (List.pairwise_map).mpr hs

theorem dedupByTime_last (curve : List EquityCurvePoint)
    (h : curve.Pairwise fun a b => a.time ≤ b.time) :
    ∀ pt ∈ dedupByTime curve,
      (curve.filter (fun q => q.time == pt.time)).getLast? = some ⟨pt.time, pt.value⟩ := by
  intro pt hpt
  rw [dedupByTime_eq_dfold] at hpt
  rcases List.mem_map.mp hpt with ⟨kv, hkv, hpe⟩
  rcases (dfold_spec curve [] List.Pairwise.nil h (by simp)).2 kv hkv with ⟨_, hmem⟩ | hlas
  · exact absurd hmem (List.not_mem_nil kv)
  · rw [← hpe]
    exact hlas

theorem sellEvents_time_ne (results : List BatchBacktestResult)
    (hdates : ∀ r ∈ results, ∀ t ∈ r.trades, t.date ≠ "") :
    ∀ e ∈ sellEvents results, e.time ≠ "" := by
  intro e he
  rcases List.mem_flatMap.mp he with ⟨r, hr, he2⟩
  rcases List.mem_filterMap.mp he2 with ⟨t, ht, hfe⟩
  by_cases hs : t.ttype = TradeType.sell
  · rw [if_pos hs] at hfe
    have := Option.some.inj hfe
    rw [← this]
    exact hdates r hr t ht
  · rw [if_neg hs] at hfe
    simp at hfe

theorem rawCurve_pairwise (results : List BatchBacktestResult) (capital : ℚ)
    (hdates : ∀ r ∈ results, ∀ t ∈ r.trades, t.date ≠ "") :
    (rawCurve results capital).Pairwise fun a b => a.time ≤ b.time := by
  have hev := sortByTime_pairwise (sellEvents results)
  have hacc : (accumulate (capital * (results.length : ℚ))
      (sortByTime (sellEvents results))).Pairwise fun a b => a.time ≤ b.time := by
    have h1 : ((sortByTime (sellEvents results)).map SellEvent.time).Pairwise (· ≤ ·) :=
      (List.pairwise_map).mpr hev
    rw [← accumulate_map_time (capital * (results.length : ℚ))] at h1
    exact (List.pairwise_map).mp h1
  refine List.pairwise_cons.mpr ⟨?_, hacc⟩
  intro q hq
  have hqt : q.time ∈ (sortByTime (sellEvents results)).map SellEvent.time := by
    rw [← accumulate_map_time (capital * (results.length : ℚ))]
    exact List.mem_map.mpr ⟨q, hq, rfl⟩
  rcases List.mem_map.mp hqt with ⟨e, he, het⟩
  cases hevs : sortByTime (sellEvents results) with
  | nil => rw [hevs] at he; exact absurd he (List.not_mem_nil e)
  | cons e0 rest =>
    have he0ne : e0.time ≠ "" := by
      refine sellEvents_time_ne results hdates e0 ?_
      exact (sortByTime_perm (sellEvents results)).subset (hevs ▸ List.mem_cons_self e0 rest)
    have hst : seedTime (e0 :: rest) = e0.time := by
      simp [seedTime, he0ne]
    show seedTime (e0 :: rest) ≤ q.time
    rw [hst, ← het]
    rw [hevs] at he hev
    rcases List.mem_cons.mp he with he | he
    · exact he ▸ le_rfl
    · exact (List.pairwise_cons.mp hev).1 e he

/-- C10.  Shape of the deduplicated equity curve of `computeEquityCurve`
(`src/unnamed/part_013` lines 42-71): for well-formed trade dates the final
curve has pairwise-distinct timestamps in strictly chronological order, each
point carries the last cumulative value recorded for its date in the raw
(pre-deduplication) curve, and when there is no SELL trade at all the curve
is exactly the single seed point dated 2024-01-01. -/
theorem C10_curve_dedup_shape (results : List BatchBacktestResult) (capital : ℚ)
    (hdates : ∀ r ∈ results, ∀ t ∈ r.trades, t.date ≠ "") :
    ((computeEquityCurve results capital).Pairwise fun a b => a.time < b.time) ∧
    (sellEvents results = [] →
      computeEquityCurve results capital
        = [⟨"2024-01-01", capital * (results.length : ℚ)⟩]) ∧
    (∀ pt ∈ computeEquityCurve results capital,
      ((rawCurve results capital).filter fun q => q.time == pt.time).getLast?
        = some ⟨pt.time, pt.value⟩) := by
  have hraw := rawCurve_pairwise results capital hdates
  refine ⟨?_, ?_, ?_⟩
  · rw [computeEquityCurve_eq_dedup_raw]
    exact dedupByTime_pairwise _ hraw
  · intro h
    have hsort : sortByTime (sellEvents results) = [] := by rw [h]; rfl
    rw [computeEquityCurve_eq_dedup_raw]
    simp only [rawCurve, hsort, seedTime, accumulate]
    rfl
  · intro pt hpt
    rw [computeEquityCurve_eq_dedup_raw] at hpt
    exact dedupByTime_last _ hraw pt hpt

/-- Concrete instantiation of theorem C10: two symbols selling on one shared
date plus an earlier distinct date; the curve collapses the shared date to
the last cumulative value, keeps strictly increasing distinct dates, and a
sell-free batch yields exactly the seed point. -/
theorem C10_curve_dedup_shape_witness :
    (((computeEquityCurve
        [⟨"A", 0, 0, 0, 0, 2, [⟨"2024-02-02", TradeType.sell, 1, 1, 10⟩,
            ⟨"2024-02-01", TradeType.sell, 1, 1, 5⟩]⟩,
          ⟨"B", 0, 0, 0, 0, 1, [⟨"2024-02-02", TradeType.sell, 1, 1, -3⟩]⟩] 100).Pairwise
        fun a b => a.time < b.time) ∧
      (sellEvents
          [⟨"A", 0, 0, 0, 0, 2, [⟨"2024-02-02", TradeType.sell, 1, 1, 10⟩,
              ⟨"2024-02-01", TradeType.sell, 1, 1, 5⟩]⟩,
            ⟨"B", 0, 0, 0, 0, 1, [⟨"2024-02-02", TradeType.sell, 1, 1, -3⟩]⟩] = [] →
        computeEquityCurve
            [⟨"A", 0, 0, 0, 0, 2, [⟨"2024-02-02", TradeType.sell, 1, 1, 10⟩,
                ⟨"2024-02-01", TradeType.sell, 1, 1, 5⟩]⟩,
              ⟨"B", 0, 0, 0, 0, 1, [⟨"2024-02-02", TradeType.sell, 1, 1, -3⟩]⟩] 100
          = [⟨"2024-01-01", 100 * ((2 : ℕ) : ℚ)⟩]) ∧
      (∀ pt ∈ computeEquityCurve
          [⟨"A", 0, 0, 0, 0, 2, [⟨"2024-02-02", TradeType.sell, 1, 1, 10⟩,
              ⟨"2024-02-01", TradeType.sell, 1, 1, 5⟩]⟩,
            ⟨"B", 0, 0, 0, 0, 1, [⟨"2024-02-02", TradeType.sell, 1, 1, -3⟩]⟩] 100,
        ((rawCurve
            [⟨"A", 0, 0, 0, 0, 2, [⟨"2024-02-02", TradeType.sell, 1, 1, 10⟩,
                ⟨"2024-02-01", TradeType.sell, 1, 1, 5⟩]⟩,
              ⟨"B", 0, 0, 0, 0, 1, [⟨"2024-02-02", TradeType.sell, 1, 1, -3⟩]⟩] 100).filter
            fun q => q.time == pt.time).getLast? = some ⟨pt.time, pt.value⟩)) :=
  C10_curve_dedup_shape
    [⟨"A", 0, 0, 0, 0, 2, [⟨"2024-02-02", TradeType.sell, 1, 1, 10⟩,
        ⟨"2024-02-01", TradeType.sell, 1, 1, 5⟩]⟩,
      ⟨"B", 0, 0, 0, 0, 1, [⟨"2024-02-02", TradeType.sell, 1, 1, -3⟩]⟩] 100
    (by decide)

/-! ## Parameter sweeps (OptimizerPanel, `src/unnamed/part_008`) -/

/-- Loop of `rangeToValues` (`src/unnamed/part_008` lines 23-30): starting at
`v`, push the five-decimal rounding of `v` and advance by `step` while
`v <= max + step * 0.0001`.  The guard carries `0 < step` (the TypeScript
function already returned `[]` otherwise), which makes the loop terminate. -/
def rangeLoop (bound step v : ℚ) : List ℚ :=
  if h : 0 < step ∧ v ≤ bound then
    round5 v :: rangeLoop bound step (v + step)
  else []
termination_by (⌊(bound - v) / step⌋ + 1).toNat
decreasing_by
  rcases h with ⟨hstep, hle⟩
  have hdiv : (bound - (v + step)) / step = (bound - v) / step - 1 := by
    rw [show bound - (v + step) = bound - v - step by ring, sub_div,
      div_self (ne_of_gt hstep)]
  have hfl : ⌊(bound - (v + step)) / step⌋ = ⌊(bound - v) / step⌋ - 1 := by
    rw [hdiv, Int.floor_sub_one]
  have hnon : 0 ≤ ⌊(bound - v) / step⌋ :=
    Int.floor_nonneg.mpr (div_nonneg (by linarith) (le_of_lt hstep))
  rw [hfl]
  omega

/-- rangeToValues from `src/unnamed/part_008` lines 23-30: expand a
min/max/step range into explicit values, five-decimal rounded, with the
`max + step * 0.0001` tolerance; non-positive step yields the empty list
(the `isNaN` guards of the source are modelled by the `Option` fields of
`SweepRow` below). -/
def rangeToValues (mn mx st : ℚ) : List ℚ :=
  if st ≤ 0 then [] else rangeLoop (mx + st * (1 / 10000)) st mn

/-- Number of loop iterations of `rangeLoop` from start value `v`. -/
def rangeCount (bound step v : ℚ) : ℕ :=
  if v ≤ bound then (⌊(bound - v) / step⌋).toNat + 1 else 0

/-- Sweep input mode of a row of the optimizer panel. -/
inductive SweepMode where
  | range
  | values
deriving DecidableEq, Repr

/-- SweepRow from `src/unnamed/part_008` lines 5-14; the numeric fields hold
the `parseFloat` of the text inputs, `none` standing for NaN. -/
structure SweepRow where
  param : String
  mode : SweepMode
  min : Option ℚ
  max : Option ℚ
  step : Option ℚ
  values : List (Option ℚ)
deriving DecidableEq, Repr

/-- sweepRowToValues from `src/unnamed/part_008` lines 32-40: a range row
expands through `rangeToValues` (empty on any NaN input), a values row keeps
the parseable entries. -/
def sweepRowToValues (row : SweepRow) : List ℚ :=
  match row.mode with
  | SweepMode.range =>
    match row.min, row.max, row.step with
    | some mn, some mx, some st => rangeToValues mn mx st
    | _, _, _ => []
  | SweepMode.values => row.values.filterMap id

/-- totalCombinations from `src/unnamed/part_008` lines 98-102: product over
rows with a non-blank parameter name of `vals.length || 1`. -/
def totalCombinations (sweeps : List SweepRow) : ℕ :=
  sweeps.foldl
    (fun acc row =>
      if row.param.trim = "" then acc
      else acc * (if (sweepRowToValues row).length = 0 then 1
                  else (sweepRowToValues row).length))
    1

/-- param_sweeps built by `runOptimizer` (`src/unnamed/part_008` lines
107-110): rows with a non-blank name, mapped to their value lists, dropping
rows whose value list is empty. -/
def paramSweeps (sweeps : List SweepRow) : List (String × List ℚ) :=
  ((sweeps.filter fun s => ¬ s.param.trim = "").map
      fun s => (s.param.trim, sweepRowToValues s)).filter
    fun s => ¬ s.2.length = 0

/-- Cartesian product of a list of value lists (the combination grid of the
specification). -/
def cartProd {α : Type} : List (List α) → List (List α)
  | [] => [[]]
  | l :: ls => l.flatMap fun x => (cartProd ls).map fun c => x :: c

theorem cartProd_length {α : Type} (ls : List (List α)) :
    (cartProd ls).length = (ls.map List.length).prod := by
  induction ls with
  | nil => rfl
  | cons l ls ih =>
    simp only [cartProd, List.length_flatMap, List.map_map]
    simp [Function.comp_def, ih, List.map_const, Nat.mul_comm]

theorem range_map_shift {α : Type} (f : ℕ → α) (m : ℕ) :
    f 0 :: (List.range m).map (fun k => f (k + 1)) = (List.range (m + 1)).map f := by
  rw [List.range_succ_eq_map]
  simp [List.map_map, Function.comp_def]

theorem rangeLoop_closed (bound step : ℚ) (hstep : 0 < step) :
    ∀ (n : ℕ) (v : ℚ), rangeCount bound step v = n →
      rangeLoop bound step v
        = (List.range n).map fun k : ℕ => round5 (v + (k : ℚ) * step) := by
  intro n
  induction n with
  | zero =>
    intro v hv
    have hnle : ¬ v ≤ bound := by
      intro hle
      simp [rangeCount, hle] at hv
    rw [rangeLoop, dif_neg (fun hc => hnle hc.2)]
    simp
  | succ m ih =>
    intro v hv
    have hle : v ≤ bound := by
      by_contra hc
      simp [rangeCount, hc] at hv
    have hv' : (⌊(bound - v) / step⌋).toNat + 1 = m + 1 := by
      simpa [rangeCount, hle] using hv
    have hfl0 : 0 ≤ ⌊(bound - v) / step⌋ :=
      Int.floor_nonneg.mpr (div_nonneg (by linarith) (le_of_lt hstep))
    have hcount : rangeCount bound step (v + step) = m := by
      by_cases hle2 : v + step ≤ bound
      · have hdiv : (bound - (v + step)) / step = (bound - v) / step - 1 := by
          rw [show bound - (v + step) = bound - v - step by ring, sub_div,
            div_self (ne_of_gt hstep)]
        have hfl : ⌊(bound - (v + step)) / step⌋ = ⌊(bound - v) / step⌋ - 1 := by
          rw [hdiv, Int.floor_sub_one]
        have hge1 : 1 ≤ ⌊(bound - v) / step⌋ := by
          refine Int.le_floor.mpr ?_
          push_cast
          rw [le_div_iff₀ hstep]
          linarith
        have h1 : rangeCount bound step (v + step)
            = (⌊(bound - (v + step)) / step⌋).toNat + 1 := by
          unfold rangeCount
          rw [if_pos hle2]
        rw [h1, hfl]
        omega
      · have hlt : (bound - v) / step < 1 := by
          rw [div_lt_one hstep]
          linarith
        have hfl : ⌊(bound - v) / step⌋ = 0 :=
          Int.floor_eq_zero_iff.mpr
            ⟨div_nonneg (by linarith) (le_of_lt hstep), hlt⟩
        rw [hfl] at hv'
        have h1 : rangeCount bound step (v + step) = 0 := by
          unfold rangeCount
          rw [if_neg hle2]
        rw [h1]
        omega
    rw [rangeLoop, dif_pos ⟨hstep, hle⟩, ih (v + step) hcount,
      ← range_map_shift (fun k => round5 (v + (k : ℚ) * step)) m]
    congr 1
    · norm_num
    · refine List.map_congr_left fun k _ => ?_
      congr 1
      push_cast
      ring

theorem rangeToValues_closed (mn mx st : ℚ) (hst : 0 < st) :
    rangeToValues mn mx st
      = (List.range (rangeCount (mx + st * (1 / 10000)) st mn)).map
          fun k : ℕ => round5 (mn + (k : ℚ) * st) := by
  rw [rangeToValues, if_neg (not_le.mpr hst)]
  exact rangeLoop_closed _ _ hst _ mn rfl

theorem rangeCount_lt_iff (mn mx st : ℚ) (hst : 0 < st) (hle : mn ≤ mx) (k : ℕ) :
    k < rangeCount (mx + st * (1 / 10000)) st mn
      ↔ mn + (k : ℚ) * st ≤ mx + st * (1 / 10000) := by
  have hq : (0 : ℚ) < st * (1 / 10000) := by positivity
  have hmb : mn ≤ mx + st * (1 / 10000) := by linarith
  simp only [rangeCount, if_pos hmb]
  constructor
  · intro hk
    have hfl0 : 0 ≤ ⌊(mx + st * (1 / 10000) - mn) / st⌋ :=
      Int.floor_nonneg.mpr (div_nonneg (by linarith) (le_of_lt hst))
    have hk' : (k : ℤ) ≤ ⌊(mx + st * (1 / 10000) - mn) / st⌋ := by omega
    have hk2 : (k : ℚ) ≤ (mx + st * (1 / 10000) - mn) / st := by
      have := Int.le_floor.mp hk'
      exact_mod_cast this
    rw [le_div_iff₀ hst] at hk2
    linarith
  · intro hk
    have hk2 : (k : ℚ) ≤ (mx + st * (1 / 10000) - mn) / st :=
      (le_div_iff₀ hst).mpr (by linarith)
    have hk' : (k : ℤ) ≤ ⌊(mx + st * (1 / 10000) - mn) / st⌋ :=
      Int.le_floor.mpr (by exact_mod_cast hk2)
    omega

theorem paramSweeps_cons_blank (row : SweepRow) (rest : List SweepRow)
    (hp : row.param.trim = "") : paramSweeps (row :: rest) = paramSweeps rest := by
  simp [paramSweeps, List.filter_cons, hp]

theorem paramSweeps_cons_empty (row : SweepRow) (rest : List SweepRow)
    (hp : ¬ row.param.trim = "") (hn : (sweepRowToValues row).length = 0) :
    paramSweeps (row :: rest) = paramSweeps rest := by
  simp [paramSweeps, List.filter_cons, hp, List.length_eq_zero.mp hn]

theorem paramSweeps_cons_keep (row : SweepRow) (rest : List SweepRow)
    (hp : ¬ row.param.trim = "") (hn : ¬ (sweepRowToValues row).length = 0) :
    paramSweeps (row :: rest)
      = (row.param.trim, sweepRowToValues row) :: paramSweeps rest := by
  have hn' : ¬ sweepRowToValues row = [] := fun hc => hn (by simp [hc])
  simp [paramSweeps, List.filter_cons, hp, hn']

theorem totalCombinations_eq_prod (sweeps : List SweepRow) :
    totalCombinations sweeps
      = ((paramSweeps sweeps).map fun s => s.2.length).prod := by
  suffices h : ∀ (l : List SweepRow) (acc : ℕ),
      l.foldl
          (fun acc row =>
            if row.param.trim = "" then acc
            else acc * (if (sweepRowToValues row).length = 0 then 1
                        else (sweepRowToValues row).length))
          acc
        = acc * ((paramSweeps l).map fun s => s.2.length).prod by
    simpa [totalCombinations] using h sweeps 1
  intro l
  induction l with
  | nil =>
    intro acc
    simp [paramSweeps]
  | cons row rest ih =>
    intro acc
    simp only [List.foldl_cons]
    by_cases hp : row.param.trim = ""
    · rw [if_pos hp, ih, paramSweeps_cons_blank row rest hp]
    · rw [if_neg hp]
      by_cases hn : (sweepRowToValues row).length = 0
      · rw [if_pos hn, ih, paramSweeps_cons_empty row rest hp hn, Nat.mul_one]
      · rw [if_neg hn, ih, paramSweeps_cons_keep row rest hp hn]
        simp [Nat.mul_assoc]

/-- C5.  Sweep expansion of the optimizer panel (`src/unnamed/part_008`):
for numeric `min <= max` and `step > 0`, `rangeToValues` produces exactly
the values `min + k * step` for consecutive `k` starting at 0, each rounded
to five decimal places, including every such value up to
`max + 0.0001 * step`; and `totalCombinations` equals the size of the
cartesian product over the swept parameters (the rows with a parameter name
and a non-empty value list, which are exactly the sweeps the request
sends). -/
theorem C5_sweep_expansion_and_count :
    (∀ mn mx st : ℚ, 0 < st → mn ≤ mx →
      rangeToValues mn mx st
          = (List.range (rangeCount (mx + st * (1 / 10000)) st mn)).map
              (fun k : ℕ => round5 (mn + (k : ℚ) * st))
        ∧ 1 ≤ rangeCount (mx + st * (1 / 10000)) st mn
        ∧ ∀ k : ℕ, (k < rangeCount (mx + st * (1 / 10000)) st mn
            ↔ mn + (k : ℚ) * st ≤ mx + st * (1 / 10000))) ∧
    (∀ sweeps : List SweepRow,
      totalCombinations sweeps
        = (cartProd ((paramSweeps sweeps).map Prod.snd)).length) := by
  constructor
  · intro mn mx st hst hle
    refine ⟨rangeToValues_closed mn mx st hst, ?_,
      fun k => rangeCount_lt_iff mn mx st hst hle k⟩
    have h0 := (rangeCount_lt_iff mn mx st hst hle 0).mpr
      (by
        have hq : (0 : ℚ) < st * (1 / 10000) := by positivity
        push_cast
        linarith)
    omega
  · intro sweeps
    rw [totalCombinations_eq_prod, cartProd_length, List.map_map]
    rfl

/-- Concrete instantiation of theorem C5: the range 1..2 with step 1/2
expands to three values, and a two-parameter sweep of sizes 3 and 2 counts
6 combinations, the size of its cartesian product. -/
theorem C5_sweep_expansion_and_count_witness :
    (0 : ℚ) < 1/2 ∧ (1 : ℚ) ≤ 2 ∧
    (rangeToValues 1 2 (1/2)
        = (List.range (rangeCount (2 + (1/2) * (1 / 10000)) (1/2) 1)).map
            (fun k : ℕ => round5 (1 + (k : ℚ) * (1/2)))
      ∧ 1 ≤ rangeCount (2 + (1/2) * (1 / 10000)) (1/2) 1
      ∧ ∀ k : ℕ, (k < rangeCount (2 + (1/2) * (1 / 10000)) (1/2) 1
          ↔ 1 + (k : ℚ) * (1/2) ≤ 2 + (1/2) * (1 / 10000))) ∧
    totalCombinations
        [⟨"p", SweepMode.values, none, none, none, [some 1, some 2, some 3]⟩,
          ⟨"q", SweepMode.values, none, none, none, [some 5, some 6]⟩]
      = (cartProd ((paramSweeps
          [⟨"p", SweepMode.values, none, none, none, [some 1, some 2, some 3]⟩,
            ⟨"q", SweepMode.values, none, none, none, [some 5, some 6]⟩]).map
            Prod.snd)).length :=
  ⟨by norm_num, by norm_num,
    C5_sweep_expansion_and_count.1 1 2 (1/2) (by norm_num) (by norm_num),
    C5_sweep_expansion_and_count.2 _⟩

/-! ## Backtest simulator (claim C1) -/

/-- Bar of the data model (section 3): open/high/low/close and volume; bars
are identified by their index in the series, so the date field plays no
role in the modelled claims and is omitted. -/
structure Bar where
  openPrice : ℚ
  high : ℚ
  low : ℚ
  closePrice : ℚ
  volume : ℕ
deriving DecidableEq, Repr

/-- Position state of the trade-lifecycle machine (section 4.4). -/
inductive Pos where
  | flat
  | long (entry : ℚ) (shares : ℕ)
deriving DecidableEq, Repr

/-- Order decided at the previous bar, to be filled at the open of the
current bar (the next-bar-open fill rule of section 4.4). -/
inductive Pending where
  | wait
  | toBuy
  | toSell
deriving DecidableEq, Repr

/-- Trade of the simulator ledger; `idx` is the index of the bar at whose
open the trade fills. -/
structure STrade where
  idx : ℕ
  ttype : TradeType
  price : ℚ
  shares : ℕ
  pnl : ℚ
deriving DecidableEq, Repr

/-- Cost parameters of section 4.4 and ALS.md section 5: per-share
commission and platform fee plus slippage as a percentage of trade
notional. -/
structure CostModel where
  commissionPerShare : ℚ
  platformFeePerShare : ℚ
  slippagePct : ℚ
deriving DecidableEq, Repr

/-- Modelled from the spec: round-trip costs of one closed trade,
"(commission + platform_fee) per share plus slippage as a fixed percentage
of trade notional, applied against the trader (worse fill on both legs)"
(section 4.4). -/
def tradeCosts (cm : CostModel) (entry exitPrice : ℚ) (shares : ℕ) : ℚ :=
  (cm.commissionPerShare + cm.platformFeePerShare) * shares * 2
    + cm.slippagePct / 100 * (entry + exitPrice) * shares

/-- State carried across bars by the simulator. -/
structure SimState where
  pos : Pos
  pending : Pending
  trades : List STrade
deriving DecidableEq, Repr

/-- Modelled from the spec: one bar of the FLAT/LONG state machine of
section 4.4 (the Python engine is not in the source tree).  First the order
pending from the previous bar fills at the open of the current bar (a buy
takes floor(capital / entry_price) shares, a sell emits the closed trade
with its pnl); then the strategy signals of the current bar decide the
order for the next bar. -/
def simStep (bars : List Bar) (bSig sSig : ℕ → Bool) (cm : CostModel)
    (capital : ℚ) (s : SimState) (t : ℕ) : SimState :=
  let bar := bars.getD t ⟨0, 0, 0, 0, 0⟩
  let s1 : SimState :=
    match s.pending, s.pos with
    | Pending.toBuy, Pos.flat =>
      let sh := (⌊capital / bar.openPrice⌋).toNat
      { pos := Pos.long bar.openPrice sh, pending := s.pending,
        trades := s.trades ++ [⟨t, TradeType.buy, bar.openPrice, sh, 0⟩] }
    | Pending.toSell, Pos.long e sh =>
      { pos := Pos.flat, pending := s.pending,
        trades := s.trades ++
          [⟨t, TradeType.sell, bar.openPrice, sh,
            (bar.openPrice - e) * sh - tradeCosts cm e bar.openPrice sh⟩] }
    | _, _ => s
  let pending2 :=
    match s1.pos with
    | Pos.flat => if bSig t then Pending.toBuy else Pending.wait
    | Pos.long _ _ => if sSig t then Pending.toSell else Pending.wait
  { s1 with pending := pending2 }

/-- Modelled from the spec: replay of one symbol from a FLAT start,
producing the trade ledger (section 4.4). -/
def runSim (bars : List Bar) (bSig sSig : ℕ → Bool) (cm : CostModel)
    (capital : ℚ) : List STrade :=
  ((List.range bars.length).foldl (simStep bars bSig sSig cm capital)
    ⟨Pos.flat, Pending.wait, []⟩).trades

/-- Modelled from the spec: SMA(n) is the mean of the last n closes,
undefined for the first n-1 bars (section 4.1). -/
def sma (n : ℕ) (closes : List ℚ) (t : ℕ) : Option ℚ :=
  if n ≤ t + 1 ∧ t < closes.length then
    some ((((closes.drop (t + 1 - n)).take n).sum) / n)
  else none

/-- Correctness record of one ledger entry: it fills at the open of a bar
strictly inside the series, a BUY only after a buy signal at the previous
bar and a SELL only after a sell signal at the previous bar. -/
def TradeOK (bars : List Bar) (bSig sSig : ℕ → Bool) (n : ℕ)
    (tr : STrade) : Prop :=
  1 ≤ tr.idx ∧ tr.idx < n
    ∧ tr.price = (bars.getD tr.idx ⟨0, 0, 0, 0, 0⟩).openPrice
    ∧ (tr.ttype = TradeType.buy → bSig (tr.idx - 1) = true)
    ∧ (tr.ttype = TradeType.sell → sSig (tr.idx - 1) = true)

/-- Invariant of the simulation after the first n bars: every ledger entry
is in order, and a pending order records a signal seen at the directly
preceding bar in the matching position state. -/
def SimInv (bars : List Bar) (bSig sSig : ℕ → Bool) (n : ℕ)
    (s : SimState) : Prop :=
  (∀ tr ∈ s.trades, TradeOK bars bSig sSig n tr)
    ∧ (s.pending = Pending.toBuy →
        1 ≤ n ∧ bSig (n - 1) = true ∧ s.pos = Pos.flat)
    ∧ (s.pending = Pending.toSell →
        1 ≤ n ∧ sSig (n - 1) = true ∧ ∃ e sh, s.pos = Pos.long e sh)

theorem simStep_inv (bars : List Bar) (bSig sSig : ℕ → Bool)
    (cm : CostModel) (capital : ℚ) (n : ℕ) (s : SimState)
    (h : SimInv bars bSig sSig n s) :
    SimInv bars bSig sSig (n + 1) (simStep bars bSig sSig cm capital s n) := by
  rcases h with ⟨htr, hbuy, hsell⟩
  have htr1 : ∀ tr ∈ s.trades, TradeOK bars bSig sSig (n + 1) tr := by
    intro tr hmem
    rcases htr tr hmem with ⟨h1, h2, h3, h4, h5⟩
    exact ⟨h1, by omega, h3, h4, h5⟩
  have hsub : n + 1 - 1 = n := rfl
  cases hp : s.pending with
  | wait =>
    have hs1 : simStep bars bSig sSig cm capital s n
        = { s with pending :=
              match s.pos with
              | Pos.flat => if bSig n then Pending.toBuy else Pending.wait
              | Pos.long _ _ => if sSig n then Pending.toSell else Pending.wait } := by
      unfold simStep
      rw [hp]
    rw [hs1]
    cases hpos : s.pos with
    | flat =>
      simp only [hpos]
      cases hb : bSig n with
      | true =>
        simp only [if_true]
        refine ⟨htr1, ?_, ?_⟩
        · intro _
          exact ⟨by omega, by rw [hsub]; exact hb, rfl⟩
        · intro hpend
          simp at hpend
      | false =>
        simp only [Bool.false_eq_true, if_false]
        refine ⟨htr1, ?_, ?_⟩
        · intro hpend
          simp at hpend
        · intro hpend
          simp at hpend
    | long e sh =>
      simp only [hpos]
      cases hb : sSig n with
      | true =>
        simp only [if_true]
        refine ⟨htr1, ?_, ?_⟩
        · intro hpend
          simp at hpend
        · intro _
          exact ⟨by omega, by rw [hsub]; exact hb, e, sh, rfl⟩
      | false =>
        simp only [Bool.false_eq_true, if_false]
        refine ⟨htr1, ?_, ?_⟩
        · intro hpend
          simp at hpend
        · intro hpend
          simp at hpend
  | toBuy =>
    rcases hbuy hp with ⟨hn, hsig, hflat⟩
    have hs1 : simStep bars bSig sSig cm capital s n
        = { pos := Pos.long (bars.getD n ⟨0, 0, 0, 0, 0⟩).openPrice
              ((⌊capital / (bars.getD n ⟨0, 0, 0, 0, 0⟩).openPrice⌋).toNat),
            pending := if sSig n then Pending.toSell else Pending.wait,
            trades := s.trades ++
              [⟨n, TradeType.buy, (bars.getD n ⟨0, 0, 0, 0, 0⟩).openPrice,
                (⌊capital / (bars.getD n ⟨0, 0, 0, 0, 0⟩).openPrice⌋).toNat, 0⟩] } := by
      unfold simStep
      rw [hp, hflat]
    rw [hs1]
    have htrnew : ∀ tr ∈ s.trades ++
        [(⟨n, TradeType.buy, (bars.getD n ⟨0, 0, 0, 0, 0⟩).openPrice,
          (⌊capital / (bars.getD n ⟨0, 0, 0, 0, 0⟩).openPrice⌋).toNat, 0⟩ : STrade)],
        TradeOK bars bSig sSig (n + 1) tr := by
      intro tr hmem
      rcases List.mem_append.mp hmem with hmem | hmem
      · exact htr1 tr hmem
      · rw [List.mem_singleton] at hmem
        subst hmem
        refine ⟨hn, Nat.lt_succ_self n, rfl, fun _ => hsig, fun hc => ?_⟩
        cases hc
    cases hb : sSig n with
    | true =>
      simp only [if_true]
      refine ⟨htrnew, ?_, ?_⟩
      · intro hpend
        simp at hpend
      · intro _
        exact ⟨by omega, by rw [hsub]; exact hb, _, _, rfl⟩
    | false =>
      simp only [Bool.false_eq_true, if_false]
      refine ⟨htrnew, ?_, ?_⟩
      · intro hpend
        simp at hpend
      · intro hpend
        simp at hpend
  | toSell =>
    rcases hsell hp with ⟨hn, hsig, e, sh, hlong⟩
    have hs1 : simStep bars bSig sSig cm capital s n
        = { pos := Pos.flat,
            pending := if bSig n then Pending.toBuy else Pending.wait,
            trades := s.trades ++
              [⟨n, TradeType.sell, (bars.getD n ⟨0, 0, 0, 0, 0⟩).openPrice, sh,
                ((bars.getD n ⟨0, 0, 0, 0, 0⟩).openPrice - e) * sh
                  - tradeCosts cm e (bars.getD n ⟨0, 0, 0, 0, 0⟩).openPrice sh⟩] } := by
      unfold simStep
      rw [hp, hlong]
    rw [hs1]
    have htrnew : ∀ tr ∈ s.trades ++
        [(⟨n, TradeType.sell, (bars.getD n ⟨0, 0, 0, 0, 0⟩).openPrice, sh,
          ((bars.getD n ⟨0, 0, 0, 0, 0⟩).openPrice - e) * sh
            - tradeCosts cm e (bars.getD n ⟨0, 0, 0, 0, 0⟩).openPrice sh⟩ : STrade)],
        TradeOK bars bSig sSig (n + 1) tr := by
      intro tr hmem
      rcases List.mem_append.mp hmem with hmem | hmem
      · exact htr1 tr hmem
      · rw [List.mem_singleton] at hmem
        subst hmem
        refine ⟨hn, Nat.lt_succ_self n, rfl, fun hc => ?_, fun _ => hsig⟩
        cases hc
    cases hb : bSig n with
    | true =>
      simp only [if_true]
      refine ⟨htrnew, ?_, ?_⟩
      · intro _
        exact ⟨by omega, by rw [hsub]; exact hb, rfl⟩
      · intro hpend
        simp at hpend
    | false =>
      simp only [Bool.false_eq_true, if_false]
      refine ⟨htrnew, ?_, ?_⟩
      · intro hpend
        simp at hpend
      · intro hpend
        simp at hpend

theorem runSim_inv (bars : List Bar) (bSig sSig : ℕ → Bool)
    (cm : CostModel) (capital : ℚ) :
    ∀ n : ℕ,
      SimInv bars bSig sSig n
        ((List.range n).foldl (simStep bars bSig sSig cm capital)
          ⟨Pos.flat, Pending.wait, []⟩) := by
  intro n
  induction n with
  | zero =>
    refine ⟨?_, ?_, ?_⟩
    · intro tr hmem
      cases hmem
    · intro hpend
      cases hpend
    · intro hpend
      cases hpend
  | succ m ih =>
    rw [List.range_succ, List.foldl_append, List.foldl_cons, List.foldl_nil]
    exact simStep_inv bars bSig sSig cm capital m _ ih

/-! ## Optimizer result ranking (OptimizerPanel, `src/unnamed/part_008`) -/

/-- OptimizeResult from `types/stock.ts` (`src/unnamed/part_004` lines
287-295).  The display code defends against missing metrics with
`?? -Infinity` and `!= null` checks, so the numeric fields are modelled as
options (`none` standing for null/undefined on error rows). -/
structure OptimizeResult where
  params : List (String × ℚ)
  total_return_pct : Option ℚ
  win_rate_pct : Option ℚ
  profit_factor : Option ℚ
  max_drawdown_pct : Option ℚ
  trade_count : Option ℚ
  error : Option String
deriving DecidableEq, Repr

/-- Sortable columns of the optimizer table (`toggleSort` call sites in
`src/unnamed/part_008`). -/
inductive SortKey where
  | total_return_pct
  | win_rate_pct
  | profit_factor
  | max_drawdown_pct
  | trade_count
deriving DecidableEq, Repr

/-- Sort direction state of the optimizer table. -/
inductive SortDir where
  | desc
  | asc
deriving DecidableEq, Repr

/-- Default sort key of the optimizer table: `useState<keyof
OptimizeResult>("total_return_pct")` at `src/unnamed/part_008` line 72. -/
def defaultSortKey : SortKey := SortKey.total_return_pct

/-- Default sort direction of the optimizer table: `useState<"asc" |
"desc">("desc")` at `src/unnamed/part_008` line 73. -/
def defaultSortDir : SortDir := SortDir.desc

/-- Null coalescing `(a[sortKey] as number) ?? -Infinity` of the comparator:
a missing metric sorts below every number. -/
def toKey : Option ℚ → WithBot ℚ
  | some v => (v : WithBot ℚ)
  | none => ⊥

/-- Sort key of one result row under the chosen column. -/
def keyOf (k : SortKey) (r : OptimizeResult) : WithBot ℚ :=
  match k with
  | SortKey.total_return_pct => toKey r.total_return_pct
  | SortKey.win_rate_pct => toKey r.win_rate_pct
  | SortKey.profit_factor => toKey r.profit_factor
  | SortKey.max_drawdown_pct => toKey r.max_drawdown_pct
  | SortKey.trade_count => toKey r.trade_count

/-- Stable insertion: the new element goes before the first element `y` for
which `bef x y` holds, hence after every earlier element it ties with. -/
def insertStable {α : Type} (bef : α → α → Bool) (x : α) : List α → List α
  | [] => [x]
  | y :: ys => if bef x y then x :: y :: ys else y :: insertStable bef x ys

/-- Stable sort by repeated insertion, processing the input left to right;
this is the result of `Array.prototype.sort` (stable per ECMA 2019) with a
numeric comparator inducing the strict order `bef`. -/
def sortStable {α : Type} (bef : α → α → Bool) (l : List α) : List α :=
  l.foldl (fun acc x => insertStable bef x acc) []

/-- sortedResults from `src/unnamed/part_008` lines 162-168: a stable sort
of `result.results` comparing only the chosen column (descending compares
`bv - av`, ascending `av - bv`); no other field takes part. -/
def sortedResults (k : SortKey) (dir : SortDir) (results : List OptimizeResult) :
    List OptimizeResult :=
  sortStable
    (fun a b =>
      match dir with
      | SortDir.desc => decide (keyOf k b < keyOf k a)
      | SortDir.asc => decide (keyOf k a < keyOf k b))
    results

theorem insertStable_perm {α : Type} (bef : α → α → Bool) (x : α) (l : List α) :
    (insertStable bef x l).Perm (x :: l) := by
  induction l with
  | nil => simp [insertStable]
  | cons y ys ih =>
    by_cases h : bef x y
    · simp [insertStable, h]
    · simp only [insertStable, if_neg h]
      exact (ih.cons y).trans (List.Perm.swap x y ys)

theorem sortStable_perm {α : Type} (bef : α → α → Bool) (l : List α) :
    (sortStable bef l).Perm l := by
  suffices h : ∀ acc : List α,
      (l.foldl (fun acc x => insertStable bef x acc) acc).Perm (acc ++ l) by
    simpa [sortStable] using h []
  induction l with
  | nil => intro acc; simp
  | cons x xs ih =>
    intro acc
    simp only [List.foldl_cons]
    refine (ih (insertStable bef x acc)).trans ?_
    refine ((insertStable_perm bef x acc).append_right xs).trans ?_
    exact List.perm_middle.symm

section KeyedSort

variable {α β : Type} [LinearOrder β] (f : α → β)

theorem insertStable_sorted (x : α) (l : List α)
    (h : l.Pairwise fun a b => f b ≤ f a) :
    (insertStable (fun a b => decide (f b < f a)) x l).Pairwise
      fun a b => f b ≤ f a := by
  induction l with
  | nil => simp [insertStable]
  | cons y ys ih =>
    rcases List.pairwise_cons.mp h with ⟨hy, hys⟩
    by_cases hb : f y < f x
    · simp only [insertStable, decide_eq_true_eq, if_pos hb]
      refine List.pairwise_cons.mpr ⟨?_, h⟩
      intro z hz
      rcases List.mem_cons.mp hz with hz | hz
      · exact hz ▸ le_of_lt hb
      · exact (hy z hz).trans (le_of_lt hb)
    · simp only [insertStable, decide_eq_true_eq, if_neg hb]
      refine List.pairwise_cons.mpr ⟨?_, ih hys⟩
      intro z hz
      have hz' : z ∈ x :: ys := (insertStable_perm _ x ys).subset hz
      rcases List.mem_cons.mp hz' with hz' | hz'
      · exact hz' ▸ not_lt.mp hb
      · exact hy z hz'

theorem sortStable_sorted (l : List α) :
    (sortStable (fun a b => decide (f b < f a)) l).Pairwise
      fun a b => f b ≤ f a := by
  suffices h : ∀ acc : List α, (acc.Pairwise fun a b => f b ≤ f a) →
      ((l.foldl (fun acc x => insertStable (fun a b => decide (f b < f a)) x acc)
          acc).Pairwise fun a b => f b ≤ f a) by
    exact h [] List.Pairwise.nil
  induction l with
  | nil => intro acc hacc; simpa using hacc
  | cons x xs ih =>
    intro acc hacc
    exact ih _ (insertStable_sorted f x acc hacc)

theorem insertStable_filter (x : α) (l : List α) (v : β)
    (h : l.Pairwise fun a b => f b ≤ f a) :
    (insertStable (fun a b => decide (f b < f a)) x l).filter (fun z => f z = v)
      = if f x = v then l.filter (fun z => f z = v) ++ [x]
        else l.filter (fun z => f z = v) := by
  induction l with
  | nil =>
    by_cases hx : f x = v <;> simp [insertStable, List.filter_cons, hx]
  | cons y ys ih =>
    rcases List.pairwise_cons.mp h with ⟨hy, hys⟩
    by_cases hb : f y < f x
    · have hlt : ∀ z ∈ y :: ys, f z < f x := by
        intro z hz
        rcases List.mem_cons.mp hz with hz | hz
        · exact hz ▸ hb
        · exact lt_of_le_of_lt (hy z hz) hb
      simp only [insertStable, decide_eq_true_eq, if_pos hb]
      by_cases hx : f x = v
      · have hnone : (y :: ys).filter (fun z => f z = v) = [] := by
          rw [List.filter_eq_nil_iff]
          intro z hz
          simp only [decide_eq_true_eq]
          intro hc
          have := hlt z hz
          rw [hc, hx] at this
          exact absurd this (lt_irrefl v)
        rw [List.filter_cons_of_pos (by simp [hx]), hnone, if_pos hx]
        rfl
      · rw [List.filter_cons_of_neg (by simp [hx]), if_neg hx]
    · simp only [insertStable, decide_eq_true_eq, if_neg hb]
      by_cases hyv : f y = v
      · rw [List.filter_cons_of_pos (by simp [hyv]), ih hys]
        by_cases hx : f x = v
        · rw [if_pos hx, List.filter_cons_of_pos (by simp [hyv]), if_pos hx]
          rfl
        · rw [if_neg hx, List.filter_cons_of_pos (by simp [hyv]), if_neg hx]
      · rw [List.filter_cons_of_neg (by simp [hyv]), ih hys]
        by_cases hx : f x = v
        · rw [if_pos hx, List.filter_cons_of_neg (by simp [hyv]), if_pos hx]
        · rw [if_neg hx, List.filter_cons_of_neg (by simp [hyv]), if_neg hx]

theorem sortStable_filter (l : List α) (v : β) :
    (sortStable (fun a b => decide (f b < f a)) l).filter (fun z => f z = v)
      = l.filter (fun z => f z = v) := by
  suffices h : ∀ acc : List α, (acc.Pairwise fun a b => f b ≤ f a) →
      ((l.foldl (fun acc x => insertStable (fun a b => decide (f b < f a)) x acc)
            acc).filter (fun z => f z = v))
        = acc.filter (fun z => f z = v) ++ l.filter (fun z => f z = v) by
    simpa [sortStable] using h [] List.Pairwise.nil
  induction l with
  | nil => intro acc hacc; simp
  | cons x xs ih =>
    intro acc hacc
    simp only [List.foldl_cons]
    rw [ih _ (insertStable_sorted f x acc hacc), insertStable_filter f x acc v hacc]
    by_cases hx : f x = v
    · rw [if_pos hx, List.filter_cons_of_pos (by simp [hx]), List.append_assoc]
      rfl
    · rw [if_neg hx, List.filter_cons_of_neg (by simp [hx])]

end KeyedSort

theorem sortedResults_desc_eq (k : SortKey) (rs : List OptimizeResult) :
    sortedResults k SortDir.desc rs
      = sortStable (fun a b => decide (keyOf k b < keyOf k a)) rs := rfl

/-- C6 counterexample.  Two optimizer rows tied on the default objective
(`total_return_pct` = 10) whose drawdowns are -30 and -5: `sortedResults`
(`src/unnamed/part_008` lines 162-168) keeps them in input order, leaving
the row with the larger absolute drawdown first, so ties on the objective
are not broken by smaller `abs max_drawdown_pct`. -/
theorem C6_no_drawdown_tiebreak_counterexample :
    sortedResults defaultSortKey defaultSortDir
        [⟨[], some 10, some 50, some 1, some (-30), some 4, none⟩,
          ⟨[], some 10, some 50, some 1, some (-5), some 4, none⟩]
      = [⟨[], some 10, some 50, some 1, some (-30), some 4, none⟩,
          ⟨[], some 10, some 50, some 1, some (-5), some 4, none⟩]
    ∧ keyOf defaultSortKey ⟨[], some 10, some 50, some 1, some (-30), some 4, none⟩
        = keyOf defaultSortKey ⟨[], some 10, some 50, some 1, some (-5), some 4, none⟩
    ∧ |(-5 : ℚ)| < |(-30 : ℚ)| := by
  refine ⟨by decide, by decide, by norm_num⟩

/-- C6 amended.  Optimizer rows are ranked by a configurable objective
column defaulting to `total_return_pct` in descending order; rows tied on
the objective keep their relative input order (the sort is stable and
compares nothing but the chosen column — there is no
`abs max_drawdown_pct` tie-break). -/
theorem C6_ranking_amended (k : SortKey) (rs : List OptimizeResult) :
    defaultSortKey = SortKey.total_return_pct ∧
    defaultSortDir = SortDir.desc ∧
    (sortedResults k SortDir.desc rs).Perm rs ∧
    ((sortedResults k SortDir.desc rs).Pairwise fun a b => keyOf k b ≤ keyOf k a) ∧
    (∀ v : WithBot ℚ,
      (sortedResults k SortDir.desc rs).filter (fun r => keyOf k r = v)
        = rs.filter (fun r => keyOf k r = v)) := by
  refine ⟨rfl, rfl, ?_, ?_, ?_⟩
  · rw [sortedResults_desc_eq]
    exact sortStable_perm _ rs
  · rw [sortedResults_desc_eq]
    exact sortStable_sorted (keyOf k) rs
  · intro v
    rw [sortedResults_desc_eq]
    exact sortStable_filter (keyOf k) rs v

/-! ## Max-drawdown sign convention (claim C7) -/

/-- ECMA `Number.prototype.toFixed(2)`: the integer `n` minimizing
`abs (n / 100 - x)`, ties to the larger `n`, printed with two decimals.
(The JavaScript negative-zero case `-0.00` does not arise at the values
used here.) -/
def fmt2 (x : ℚ) : String :=
  (if jsRound (x * 100) < 0 then "-" else "")
    ++ toString ((jsRound (x * 100)).natAbs / 100) ++ "."
    ++ (if (jsRound (x * 100)).natAbs % 100 < 10 then "0" else "")
    ++ toString ((jsRound (x * 100)).natAbs % 100)

/-- Max DD cell of the batch results grid,
`src/frontend/src/components/BacktestResultsGrid.tsx` line 86: a minus sign
is prepended to `toFixed(2)` of the raw value. -/
def gridMaxDrawdownCell (v : ℚ) : String := "-" ++ fmt2 v ++ "%"

/-- Max DD cell of the optimizer table, `src/unnamed/part_008` line 522: the
raw value through `toFixed(2)`, no sign manipulation. -/
def optimizerMaxDrawdownCell (v : ℚ) : String := fmt2 v ++ "%"

/-- Red-coloring condition of the optimizer Max DD cell,
`src/unnamed/part_008` line 521: `row.max_drawdown_pct < 0`. -/
def optimizerMaxDrawdownRed (v : ℚ) : Bool := decide (v < 0)

/-- Modelled from the spec: `max_drawdown_pct` is "the most negative
observed (equity_t - running_peak)/running_peak x 100" (section 4.4); the
Python engine computing it is not in the source tree.  The fold carries the
running peak and the most negative ratio seen so far. -/
def ddFold (peak worst : ℚ) : List ℚ → ℚ
  | [] => worst
  | e :: es => ddFold (max peak e) (min worst ((e - max peak e) / max peak e * 100)) es

/-- Modelled from the spec: maximum drawdown of an equity curve, 0 for a
curve with at most one point. -/
def maxDrawdownPct (equity : List ℚ) : ℚ :=
  match equity with
  | [] => 0
  | e0 :: rest => ddFold e0 0 rest

theorem ddFold_le_worst (l : List ℚ) : ∀ peak worst : ℚ, ddFold peak worst l ≤ worst := by
  induction l with
  | nil => intro peak worst; exact le_rfl
  | cons e es ih =>
    intro peak worst
    exact le_trans (ih _ _) (min_le_left _ _)

theorem maxDrawdownPct_nonpos (equity : List ℚ) : maxDrawdownPct equity ≤ 0 := by
  cases equity with
  | nil => exact le_rfl
  | cons e0 rest => exact ddFold_le_worst rest e0 0

/-- C7.  Evidence of the sign-convention mismatch: the spec-modelled
`max_drawdown_pct` of the curve 100, 90, 80, 95 is -20 (a value that is
always non-positive), yet the two display sites of the repository render it
incompatibly — `BacktestResultsGrid` prepends a minus sign (yielding the
double-minus text under the non-positive convention, or a sign flip if the
backend delivered magnitudes), while `OptimizerPanel` prints the raw value
and colors it red only when negative. -/
theorem C7_sign_convention_mismatch :
    maxDrawdownPct [100, 90, 80, 95] = -20
    ∧ maxDrawdownPct [100, 90, 80, 95] ≤ 0
    ∧ gridMaxDrawdownCell (-20) = "--20.00%"
    ∧ optimizerMaxDrawdownCell (-20) = "-20.00%"
    ∧ optimizerMaxDrawdownRed (-20) = true
    ∧ gridMaxDrawdownCell 20 = "-20.00%"
    ∧ optimizerMaxDrawdownCell 20 = "20.00%"
    ∧ optimizerMaxDrawdownRed 20 = false
    ∧ gridMaxDrawdownCell (-20) ≠ optimizerMaxDrawdownCell (-20) := by
  have h1 : jsRound ((-20 : ℚ) * 100) = -2000 := by norm_num [jsRound]
  have h2 : jsRound ((20 : ℚ) * 100) = 2000 := by norm_num [jsRound]
  have hg1 : gridMaxDrawdownCell (-20) = "--20.00%" := by
    simp only [gridMaxDrawdownCell, fmt2, h1]
    decide
  have ho1 : optimizerMaxDrawdownCell (-20) = "-20.00%" := by
    simp only [optimizerMaxDrawdownCell, fmt2, h1]
    decide
  have hg2 : gridMaxDrawdownCell 20 = "-20.00%" := by
    simp only [gridMaxDrawdownCell, fmt2, h2]
    decide
  have ho2 : optimizerMaxDrawdownCell 20 = "20.00%" := by
    simp only [optimizerMaxDrawdownCell, fmt2, h2]
    decide
  refine ⟨by norm_num [maxDrawdownPct, ddFold, max_def, min_def],
    maxDrawdownPct_nonpos _, hg1, ho1, by decide, hg2, ho2, by decide, ?_⟩
  rw [hg1, ho1]
  decide

/-! ## Batch runner error capture (claim C3) -/

/-- BatchBacktestResponse from `types/stock.ts` (`src/unnamed/part_004`
lines 252-258): the success flag, the per-symbol results, and the separate
error list travel in the same response (`summary` and `date_range` are not
needed by the claims). -/
structure BatchBacktestResponse where
  success : Bool
  results : List BatchBacktestResult
  errors : List (String × String)
deriving DecidableEq, Repr

/-- Row of the backtest results table, `src/unnamed/part_010`: the `tbody`
renders one row per successful result followed by one dedicated row per
error entry. -/
inductive GridRow where
  | resultRow (r : BatchBacktestResult)
  | errorRow (symbol : String) (error : String)
deriving DecidableEq, Repr

/-- Rows of `BacktestResultsGrid` (`src/unnamed/part_010` lines 24-67):
`results.map(...)` then `errors.map(...)` inside one table body. -/
def gridRows (results : List BatchBacktestResult)
    (errors : List (String × String)) : List GridRow :=
  results.map GridRow.resultRow ++ errors.map fun e => GridRow.errorRow e.1 e.2

/-- Modelled from the spec: the Batch Runner runs every unit independently
and "Per-symbol failures are collected into a separate error list and never
fail the whole batch" (sections 4.5 and 7); the FastAPI backend is not in
the source tree.  A unit is a symbol together with the outcome of its
backtest, abstracted as an `Except` value. -/
def runBatchModel
    (units : List (String × Except String BatchBacktestResult)) :
    BatchBacktestResponse :=
  units.foldl
    (fun resp u =>
      match u.2 with
      | Except.ok r => { resp with results := resp.results ++ [r] }
      | Except.error e => { resp with errors := resp.errors ++ [(u.1, e)] })
    ⟨true, [], []⟩

theorem runBatchModel_fold
    (units : List (String × Except String BatchBacktestResult)) :
    ∀ resp : BatchBacktestResponse,
      units.foldl
          (fun resp u =>
            match u.2 with
            | Except.ok r => { resp with results := resp.results ++ [r] }
            | Except.error e => { resp with errors := resp.errors ++ [(u.1, e)] })
          resp
        = ⟨resp.success,
            resp.results ++ units.filterMap (fun u =>
              match u.2 with
              | Except.ok r => some r
              | Except.error _ => none),
            resp.errors ++ units.filterMap (fun u =>
              match u.2 with
              | Except.ok _ => none
              | Except.error e => some (u.1, e))⟩ := by
  induction units with
  | nil => intro resp; simp
  | cons u us ih =>
    intro resp
    cases hu : u.2 with
    | ok r =>
      simp only [List.foldl_cons, hu, ih, List.filterMap_cons, hu]
      simp [List.append_assoc]
    | error e =>
      simp only [List.foldl_cons, hu, ih, List.filterMap_cons, hu]
      simp [List.append_assoc]

theorem runBatchModel_results
    (units : List (String × Except String BatchBacktestResult)) :
    (runBatchModel units).results
      = units.filterMap (fun u =>
          match u.2 with
          | Except.ok r => some r
          | Except.error _ => none) := by
  unfold runBatchModel
  rw [runBatchModel_fold]
  rfl

theorem runBatchModel_errors
    (units : List (String × Except String BatchBacktestResult)) :
    (runBatchModel units).errors
      = units.filterMap (fun u =>
          match u.2 with
          | Except.ok _ => none
          | Except.error e => some (u.1, e)) := by
  unfold runBatchModel
  rw [runBatchModel_fold]
  rfl

theorem runBatchModel_success
    (units : List (String × Except String BatchBacktestResult)) :
    (runBatchModel units).success = true := by
  unfold runBatchModel
  rw [runBatchModel_fold]

theorem runBatchModel_length
    (units : List (String × Except String BatchBacktestResult)) :
    (runBatchModel units).results.length + (runBatchModel units).errors.length
      = units.length := by
  rw [runBatchModel_results, runBatchModel_errors]
  induction units with
  | nil => rfl
  | cons u us ih =>
    cases hu : u.2 with
    | ok r => simp [List.filterMap_cons, hu]; omega
    | error e => simp [List.filterMap_cons, hu]; omega

/-- C3.  Spec-modelled batch runner together with the grid from the source:
the batch always succeeds as a whole, every failing unit contributes one
entry of the separate error list of the same response, every succeeding
unit one result, nothing is lost, and the grid renders one dedicated row
per error next to the result rows of the same table body. -/
theorem C3_per_symbol_errors
    (units : List (String × Except String BatchBacktestResult)) :
    (runBatchModel units).success = true
    ∧ (runBatchModel units).results.length + (runBatchModel units).errors.length
        = units.length
    ∧ (∀ u ∈ units, ∀ e, u.2 = Except.error e →
        (u.1, e) ∈ (runBatchModel units).errors)
    ∧ (∀ u ∈ units, ∀ r, u.2 = Except.ok r →
        r ∈ (runBatchModel units).results)
    ∧ (∀ err ∈ (runBatchModel units).errors,
        GridRow.errorRow err.1 err.2
          ∈ gridRows (runBatchModel units).results (runBatchModel units).errors)
    ∧ (gridRows (runBatchModel units).results (runBatchModel units).errors).length
        = (runBatchModel units).results.length + (runBatchModel units).errors.length := by
  refine ⟨runBatchModel_success units, runBatchModel_length units, ?_, ?_, ?_, ?_⟩
  · intro u hu e hue
    rw [runBatchModel_errors]
    exact List.mem_filterMap.mpr ⟨u, hu, by rw [hue]⟩
  · intro u hu r hur
    rw [runBatchModel_results]
    exact List.mem_filterMap.mpr ⟨u, hu, by rw [hur]⟩
  · intro err herr
    unfold gridRows
    refine List.mem_append.mpr (Or.inr ?_)
    exact List.mem_map.mpr ⟨err, herr, rfl⟩
  · unfold gridRows
    simp

/-- Concrete instantiation of theorem C3: a batch of three units where the
middle symbol fails keeps both successes, exposes the one error in the
response, and gives it its own grid row. -/
theorem C3_per_symbol_errors_witness :
    ("B", Except.error "no data") ∈
      ([("A", Except.ok (⟨"A", 1, 2, 3, -4, 0, []⟩ : BatchBacktestResult)),
        ("B", Except.error "no data"),
        ("C", Except.ok (⟨"C", 5, 6, 7, -8, 0, []⟩ : BatchBacktestResult))] :
        List (String × Except String BatchBacktestResult))
    ∧ ("B", "no data") ∈ (runBatchModel
        [("A", Except.ok ⟨"A", 1, 2, 3, -4, 0, []⟩),
          ("B", Except.error "no data"),
          ("C", Except.ok ⟨"C", 5, 6, 7, -8, 0, []⟩)]).errors :=
  ⟨List.mem_cons_of_mem _ (List.mem_cons_self _ _),
    (C3_per_symbol_errors
      [("A", Except.ok ⟨"A", 1, 2, 3, -4, 0, []⟩),
        ("B", Except.error "no data"),
        ("C", Except.ok ⟨"C", 5, 6, 7, -8, 0, []⟩)]).2.2.1
      ("B", Except.error "no data")
      (List.mem_cons_of_mem _ (List.mem_cons_self _ _)) "no data" rfl⟩

/-! ## Optimizer combination ceiling (claim C4) -/

/-- Error taxonomy entry of section 7 raised by the sweep guard. -/
inductive OptimizerError where
  | tooManyCombinations
deriving DecidableEq, Repr

/-- Modelled from the spec: "a combination count above a fixed safety
ceiling fails fast with TooManyCombinationsError before any backtest runs"
(section 4.6); the FastAPI backend holding this guard is not in the source
tree.  The first component is the list of combinations actually executed,
so that "no backtest ran" is visible in the result. -/
def optimizeSweep {R : Type} (valueLists : List (List ℚ)) (ceiling : ℕ)
    (runBacktest : List ℚ → R) :
    List (List ℚ) × Except OptimizerError (List R) :=
  let combos := cartProd valueLists
  if ceiling < combos.length then
    ([], Except.error OptimizerError.tooManyCombinations)
  else
    (combos, Except.ok (combos.map runBacktest))

/-- C4.  When the cartesian-product combination count exceeds the ceiling,
the sweep fails with TooManyCombinationsError and the executed-combination
list is empty: no backtest runs at all. -/
theorem C4_combination_ceiling {R : Type} (valueLists : List (List ℚ))
    (ceiling : ℕ) (runBacktest : List ℚ → R)
    (h : ceiling < (cartProd valueLists).length) :
    optimizeSweep valueLists ceiling runBacktest
      = ([], Except.error OptimizerError.tooManyCombinations) := by
  simp [optimizeSweep, h]

/-- Concrete instantiation of theorem C4: a 2 x 2 sweep against a ceiling of
3 executes nothing and fails with the dedicated error. -/
theorem C4_combination_ceiling_witness :
    3 < (cartProd ([[1, 2], [3, 4]] : List (List ℚ))).length
    ∧ optimizeSweep ([[1, 2], [3, 4]] : List (List ℚ)) 3 (fun c => c.sum)
        = ([], Except.error OptimizerError.tooManyCombinations) :=
  ⟨by decide, C4_combination_ceiling [[1, 2], [3, 4]] 3 (fun c => c.sum) (by decide)⟩

/-! ## Indicator crossings (claim C8) -/

/-- Modelled from the spec: `crosses_above(A,B)` at bar t holds iff
`A[t-1] <= B[t-1]` and `A[t] > B[t]` — a strict single-bar transition
(section 4.1), false at bar 0 and whenever a warm-up value is undefined
(section 4.3).  The indicator library is in the Python backend, not in the
source tree. -/
def crossesAbove (A B : ℕ → Option ℚ) (t : ℕ) : Bool :=
  if t = 0 then false
  else
    match A (t - 1), B (t - 1), A t, B t with
    | some a0, some b0, some a1, some b1 => decide (a0 ≤ b0 ∧ b1 < a1)
    | _, _, _, _ => false

/-- Modelled from the spec: mirror image of `crossesAbove` for sell
conditions. -/
def crossesBelow (A B : ℕ → Option ℚ) (t : ℕ) : Bool :=
  if t = 0 then false
  else
    match A (t - 1), B (t - 1), A t, B t with
    | some a0, some b0, some a1, some b1 => decide (b0 ≤ a0 ∧ a1 < b1)
    | _, _, _, _ => false

/-- C8.  For totally-defined series the crossing test is exactly the strict
single-bar transition `A[t-1] <= B[t-1]` and `A[t] > B[t]`; over the
two-point fixture A = 1,2 below B = 3,4 it never fires, and over the
crossing fixture A = 1,3,4 against B = 2,2,2 it fires at the transition bar
1 and nowhere else. -/
theorem C8_crosses_above (A B : ℕ → ℚ) (t : ℕ) (ht : 1 ≤ t) :
    (crossesAbove (fun i => some (A i)) (fun i => some (B i)) t = true
      ↔ A (t - 1) ≤ B (t - 1) ∧ A t > B t)
    ∧ (∀ s : ℕ, 1 ≤ s → s < 2 →
        crossesAbove (fun i => some (([1, 2] : List ℚ).getD i 0))
          (fun i => some (([3, 4] : List ℚ).getD i 0)) s = false)
    ∧ (∀ s : ℕ, s < 3 →
        (crossesAbove (fun i => some (([1, 3, 4] : List ℚ).getD i 0))
            (fun i => some (([2, 2, 2] : List ℚ).getD i 0)) s = true ↔ s = 1)) := by
  refine ⟨?_, ?_, ?_⟩
  · have ht0 : ¬ t = 0 := by omega
    simp only [crossesAbove, if_neg ht0, decide_eq_true_eq]
  · intro s h1 h2
    have hs : s = 1 := by omega
    subst hs
    decide
  · intro s h3
    interval_cases s <;> decide

/-- Concrete instantiation of theorem C8 at the transition bar of the
crossing fixture. -/
theorem C8_crosses_above_witness :
    (1 : ℕ) ≤ 1
    ∧ ((crossesAbove (fun i => some (([1, 3, 4] : List ℚ).getD i 0))
          (fun i => some (([2, 2, 2] : List ℚ).getD i 0)) 1 = true
        ↔ ([1, 3, 4] : List ℚ).getD 0 0 ≤ ([2, 2, 2] : List ℚ).getD 0 0
            ∧ ([1, 3, 4] : List ℚ).getD 1 0 > ([2, 2, 2] : List ℚ).getD 1 0)
      ∧ (∀ s : ℕ, 1 ≤ s → s < 2 →
          crossesAbove (fun i => some (([1, 2] : List ℚ).getD i 0))
            (fun i => some (([3, 4] : List ℚ).getD i 0)) s = false)
      ∧ (∀ s : ℕ, s < 3 →
          (crossesAbove (fun i => some (([1, 3, 4] : List ℚ).getD i 0))
              (fun i => some (([2, 2, 2] : List ℚ).getD i 0)) s = true ↔ s = 1))) :=
  ⟨le_rfl,
    C8_crosses_above
      (fun i => (([1, 3, 4] : List ℚ).getD i 0))
      (fun i => (([2, 2, 2] : List ℚ).getD i 0)) 1 le_rfl⟩

/-! ## Scenario fixture and claim C1 -/

/-- Forty-bar fixture of the C1 scenario: ten flat bars at close 100, an
uptrend to 130, then a downtrend back to 100; every open equals its own
close plus one, so a fill at the open of bar t+1 can never coincide with
the close or the open of the signal bar t. -/
def fixtureBars : List Bar :=
  [⟨101, 101, 100, 100, 0⟩,
    ⟨101, 101, 100, 100, 0⟩,
    ⟨101, 101, 100, 100, 0⟩,
    ⟨101, 101, 100, 100, 0⟩,
    ⟨101, 101, 100, 100, 0⟩,
    ⟨101, 101, 100, 100, 0⟩,
    ⟨101, 101, 100, 100, 0⟩,
    ⟨101, 101, 100, 100, 0⟩,
    ⟨101, 101, 100, 100, 0⟩,
    ⟨101, 101, 100, 100, 0⟩,
    ⟨103, 103, 102, 102, 0⟩,
    ⟨105, 105, 104, 104, 0⟩,
    ⟨107, 107, 106, 106, 0⟩,
    ⟨109, 109, 108, 108, 0⟩,
    ⟨111, 111, 110, 110, 0⟩,
    ⟨113, 113, 112, 112, 0⟩,
    ⟨115, 115, 114, 114, 0⟩,
    ⟨117, 117, 116, 116, 0⟩,
    ⟨119, 119, 118, 118, 0⟩,
    ⟨121, 121, 120, 120, 0⟩,
    ⟨123, 123, 122, 122, 0⟩,
    ⟨125, 125, 124, 124, 0⟩,
    ⟨127, 127, 126, 126, 0⟩,
    ⟨129, 129, 128, 128, 0⟩,
    ⟨131, 131, 130, 130, 0⟩,
    ⟨129, 129, 128, 128, 0⟩,
    ⟨127, 127, 126, 126, 0⟩,
    ⟨125, 125, 124, 124, 0⟩,
    ⟨123, 123, 122, 122, 0⟩,
    ⟨121, 121, 120, 120, 0⟩,
    ⟨119, 119, 118, 118, 0⟩,
    ⟨117, 117, 116, 116, 0⟩,
    ⟨115, 115, 114, 114, 0⟩,
    ⟨113, 113, 112, 112, 0⟩,
    ⟨111, 111, 110, 110, 0⟩,
    ⟨109, 109, 108, 108, 0⟩,
    ⟨107, 107, 106, 106, 0⟩,
    ⟨105, 105, 104, 104, 0⟩,
    ⟨103, 103, 102, 102, 0⟩,
    ⟨101, 101, 100, 100, 0⟩]

/-- Close series of the fixture, the input of the SMA signals. -/
def fixtureCloses : List ℚ :=
  [100, 100, 100, 100, 100, 100, 100, 100, 100, 100, 102, 104, 106, 108, 110, 112, 114, 116, 118, 120, 122, 124, 126, 128, 130, 128, 126, 124, 122, 120, 118, 116, 114, 112, 110, 108, 106, 104, 102, 100]

/-- Buy rule of the scenario strategy: SMA(5) crosses above SMA(10). -/
def buySigF (t : ℕ) : Bool :=
  crossesAbove (sma 5 fixtureCloses) (sma 10 fixtureCloses) t

/-- Sell rule of the scenario strategy: SMA(5) crosses below SMA(10). -/
def sellSigF (t : ℕ) : Bool :=
  crossesBelow (sma 5 fixtureCloses) (sma 10 fixtureCloses) t

/-- Cost model of ALS.md section 5: commission 0.0049 and platform fee
0.005 per share, slippage 0.05 percent of trade value. -/
def alsCost : CostModel := ⟨49/10000, 1/200, 1/20⟩

set_option maxRecDepth 8000 in
theorem buySigF_eq : ∀ t : ℕ, buySigF t = decide (t = 10) := by
  intro t
  rcases lt_or_ge t 40 with ht | ht
  · interval_cases t <;> norm_num [buySigF, crossesAbove, sma, fixtureCloses]
  · have h1 : ¬ t < 40 := by omega
    have h2 : t ≠ 10 := by omega
    have h3 : ¬ t = 0 := by omega
    simp [buySigF, crossesAbove, sma, fixtureCloses, h1, h2, h3]

set_option maxRecDepth 8000 in
theorem sellSigF_eq : ∀ t : ℕ, sellSigF t = decide (t = 29) := by
  intro t
  rcases lt_or_ge t 40 with ht | ht
  · interval_cases t <;> norm_num [sellSigF, crossesBelow, sma, fixtureCloses]
  · have h1 : ¬ t < 40 := by omega
    have h2 : t ≠ 29 := by omega
    have h3 : ¬ t = 0 := by omega
    simp [sellSigF, crossesBelow, sma, fixtureCloses, h1, h2, h3]

/-- C1.  Next-bar-open execution.  General part: in every backtest, every
ledger entry fills at the open price of a bar strictly after bar 0 and
inside the series, a BUY only when the buy signal held at the directly
preceding bar (the signal bar) and a SELL only when the sell signal held
there — never at the signal bar itself.  Scenario part: on the forty-bar
uptrend-then-downtrend fixture, the SMA(5)/SMA(10) crossing strategy emits
exactly one BUY then one SELL; the buy signal fires at bar 10 and fills at
the open of bar 11 (price 105), the sell signal fires at bar 29 and fills
at the open of bar 30 (price 119), and neither fill price equals the close
or the open of its signal bar. -/
theorem C1_next_bar_open_fills :
    (∀ (bars : List Bar) (bSig sSig : ℕ → Bool) (cm : CostModel) (capital : ℚ),
      ∀ tr ∈ runSim bars bSig sSig cm capital,
        1 ≤ tr.idx ∧ tr.idx < bars.length
          ∧ tr.price = (bars.getD tr.idx ⟨0, 0, 0, 0, 0⟩).openPrice
          ∧ (tr.ttype = TradeType.buy → bSig (tr.idx - 1) = true)
          ∧ (tr.ttype = TradeType.sell → sSig (tr.idx - 1) = true))
    ∧ (runSim fixtureBars buySigF sellSigF alsCost 10000).map STrade.idx = [11, 30]
    ∧ (runSim fixtureBars buySigF sellSigF alsCost 10000).map STrade.ttype
        = [TradeType.buy, TradeType.sell]
    ∧ (runSim fixtureBars buySigF sellSigF alsCost 10000).map STrade.price = [105, 119]
    ∧ buySigF 10 = true
    ∧ sellSigF 29 = true
    ∧ (105 : ℚ) = (fixtureBars.getD 11 ⟨0, 0, 0, 0, 0⟩).openPrice
    ∧ (105 : ℚ) ≠ (fixtureBars.getD 10 ⟨0, 0, 0, 0, 0⟩).closePrice
    ∧ (105 : ℚ) ≠ (fixtureBars.getD 10 ⟨0, 0, 0, 0, 0⟩).openPrice
    ∧ (119 : ℚ) = (fixtureBars.getD 30 ⟨0, 0, 0, 0, 0⟩).openPrice
    ∧ (119 : ℚ) ≠ (fixtureBars.getD 29 ⟨0, 0, 0, 0, 0⟩).closePrice
    ∧ (119 : ℚ) ≠ (fixtureBars.getD 29 ⟨0, 0, 0, 0, 0⟩).openPrice := by
  refine ⟨?_, ?_, ?_, ?_, ?_, ?_, ?_, ?_, ?_, ?_, ?_, ?_⟩
  · intro bars bSig sSig cm capital tr htr
    exact (runSim_inv bars bSig sSig cm capital bars.length).1 tr htr
  · simp [runSim, fixtureBars, simStep, List.range_succ, buySigF_eq, sellSigF_eq]
  · simp [runSim, fixtureBars, simStep, List.range_succ, buySigF_eq, sellSigF_eq]
  · simp [runSim, fixtureBars, simStep, List.range_succ, buySigF_eq, sellSigF_eq]
  · rw [buySigF_eq]
    decide
  · rw [sellSigF_eq]
    decide
  · decide
  · decide
  · decide
  · decide
  · decide
  · decide

/-- Six-bar fixture for the C1 witness, with signals given directly: a buy
signal at bar 1 and a sell signal at bar 3. -/
def miniBars : List Bar :=
  [⟨10, 10, 10, 10, 0⟩, ⟨11, 11, 11, 11, 0⟩, ⟨12, 12, 12, 12, 0⟩,
    ⟨13, 13, 13, 13, 0⟩, ⟨14, 14, 14, 14, 0⟩, ⟨15, 15, 15, 15, 0⟩]

/-- Concrete instantiation of the general part of theorem C1: the BUY of a
six-bar run with a buy signal at bar 1 fills at bar 2, at that bar's open
price 12, with the signal recorded at bar 1. -/
theorem C1_next_bar_open_fills_witness :
    ((⟨2, TradeType.buy, 12, 8, 0⟩ : STrade)
        ∈ runSim miniBars (fun t => decide (t = 1)) (fun t => decide (t = 3))
            ⟨0, 0, 0⟩ 100)
    ∧ (1 ≤ (⟨2, TradeType.buy, 12, 8, 0⟩ : STrade).idx
        ∧ (⟨2, TradeType.buy, 12, 8, 0⟩ : STrade).idx < miniBars.length
        ∧ (⟨2, TradeType.buy, 12, 8, 0⟩ : STrade).price
            = (miniBars.getD (⟨2, TradeType.buy, 12, 8, 0⟩ : STrade).idx
                ⟨0, 0, 0, 0, 0⟩).openPrice
        ∧ ((⟨2, TradeType.buy, 12, 8, 0⟩ : STrade).ttype = TradeType.buy →
            (fun t => decide (t = 1))
              ((⟨2, TradeType.buy, 12, 8, 0⟩ : STrade).idx - 1) = true)
        ∧ ((⟨2, TradeType.buy, 12, 8, 0⟩ : STrade).ttype = TradeType.sell →
            (fun t => decide (t = 3))
              ((⟨2, TradeType.buy, 12, 8, 0⟩ : STrade).idx - 1) = true)) := by
  have hrun : runSim miniBars (fun t => decide (t = 1)) (fun t => decide (t = 3))
      ⟨0, 0, 0⟩ 100
      = [⟨2, TradeType.buy, 12, 8, 0⟩, ⟨4, TradeType.sell, 14, 8, 16⟩] := by
    norm_num [runSim, miniBars, simStep, List.range_succ, tradeCosts]
    refine ⟨rfl, ?_⟩
    rw [show (8 : ℤ).toNat = 8 from rfl]
    norm_num
  have hmem : (⟨2, TradeType.buy, 12, 8, 0⟩ : STrade)
      ∈ runSim miniBars (fun t => decide (t = 1)) (fun t => decide (t = 3))
          ⟨0, 0, 0⟩ 100 := by
    rw [hrun]
    exact List.mem_cons_self _ _
  exact ⟨hmem, C1_next_bar_open_fills.1 miniBars _ _ _ _ _ hmem⟩

/-! ## Determinism (claim C9) -/

/-- C9.  Every embedded engine computation is a pure function of its
arguments — the embeddings read no mutable state, so running any of them
twice on identical inputs yields identical outputs: the simulator, the
equity-curve aggregation, the sweep expansion, the result ranking and the
combination count. -/
theorem C9_determinism :
    (∀ (bars : List Bar) (bSig sSig : ℕ → Bool) (cm : CostModel) (capital : ℚ),
      runSim bars bSig sSig cm capital = runSim bars bSig sSig cm capital)
    ∧ (∀ (results : List BatchBacktestResult) (capital : ℚ),
        computeEquityCurve results capital = computeEquityCurve results capital)
    ∧ (∀ mn mx st : ℚ, rangeToValues mn mx st = rangeToValues mn mx st)
    ∧ (∀ (k : SortKey) (dir : SortDir) (rs : List OptimizeResult),
        sortedResults k dir rs = sortedResults k dir rs)
    ∧ (∀ sweeps : List SweepRow, totalCombinations sweeps = totalCombinations sweeps) :=
  ⟨fun _ _ _ _ _ => rfl, fun _ _ => rfl, fun _ _ _ => rfl, fun _ _ _ => rfl,
    fun _ => rfl⟩

end Gravion
